import Mathlib

/-!
Verification of the URL-extraction pipeline of `extract_links.py`
(repository `oshoval/image-link-extractor`).

Strings are embedded as `List Char` (Python strings are sequences of
code points).  Python's `str.isalnum` and the whitespace set are modelled
at the ASCII level, which is exact for every character class the
pipeline's constants mention.  The two floating-point threshold
comparisons (`>= 0.7`, `>= 0.85`) are modelled as exact rational
comparisons over naturals.
-/

/-- Coerce a Lean string literal to the `List Char` representation. -/
def s2l (s : String) : List Char := s.data

/-- Python whitespace (`str.strip`, regex `\s`) restricted to ASCII:
space, tab, newline, carriage return, vertical tab, form feed. -/
def pyIsSpace (c : Char) : Bool :=
  (c == ' ') || (c == '\t') || (c == '\n') || (c == '\r') ||
  (c == '\x0b') || (c == '\x0c')

/-- Drop matching characters from the right end of a list. -/
def rdropP (p : Char → Bool) (l : List Char) : List Char :=
  (l.reverse.dropWhile p).reverse

/-- Python `str.strip()` (no arguments): trim whitespace at both ends. -/
def pyStrip (l : List Char) : List Char :=
  rdropP pyIsSpace (l.dropWhile pyIsSpace)

/-- Python `str.rstrip()` (no arguments). -/
def pyRstrip (l : List Char) : List Char :=
  rdropP pyIsSpace l

/-- Python `str.rstrip(chars)`: trim any of the given characters on the right. -/
def rdropChars (cs : List Char) (l : List Char) : List Char :=
  rdropP (fun c => cs.contains c) l

/-- Python `str.split(sep)` for a one-character separator
(`"".split(sep) == [""]`, empty fields preserved). -/
def splitChar (sep : Char) : List Char → List (List Char)
  | [] => [[]]
  | c :: cs =>
    match splitChar sep cs with
    | s :: rest => if c = sep then [] :: s :: rest else (c :: s) :: rest
    | [] => [[c]]

/-- Python `sep.join(parts)` for a one-character separator. -/
def joinChar (sep : Char) : List (List Char) → List Char
  | [] => []
  | [s] => s
  | s :: t :: rest => s ++ sep :: joinChar sep (t :: rest)

-- ---------------------------------------------------------------------------
-- Constants (`extract_links.py`)
-- ---------------------------------------------------------------------------

/-- `BULLET_PREFIXES = ("*", "-", "•", "●", "+")`. -/
def bulletChars : List Char := ['*', '-', '•', '●', '+']

/-- `URL_CHARS`: the RFC 3986 URL punctuation set of `extract_links.py`
(slash, dash, underscore, dot, tilde, colon, question mark, hash,
brackets, at sign, bang, dollar, ampersand, apostrophe, parentheses,
star, plus, comma, semicolon, equals, percent); the apostrophe is
written via its code point. -/
def urlChars : List Char :=
  ['/', '-', '_', '.', '~', ':', '?', '#', '[', ']', '@', '!', '$', '&',
   Char.ofNat 39, '(', ')', '*', '+', ',', ';', '=', '%']

/-- `HEX_CHARS = frozenset("0123456789abcdefABCDEF")`. -/
def hexChars : List Char := s2l "0123456789abcdefABCDEF"

/-- Membership in `HEX_CHARS`. -/
def isHexChar (c : Char) : Bool := hexChars.contains c

/-- `OCR_HEX_FIXES.get(c, c)`: the OCR misread substitution map with
identity default. -/
def ocrFix (c : Char) : Char :=
  if c = 'O' then '0'
  else if c = 'Q' then '0'
  else if c = 'l' then '1'
  else if c = 'I' then '1'
  else if c = 'S' then '5'
  else if c = 'G' then '6'
  else c

/-- The key set of `OCR_HEX_FIXES`. -/
def glyphKeys : List Char := ['O', 'Q', 'l', 'I', 'S', 'G']

/-- The delimiter class of `URL_PATTERN`'s body:
whitespace or one of `< > " ' ) ] } , ; !`
(quote, apostrophe and closing brace written via code points). -/
def isUrlDelim (c : Char) : Bool :=
  pyIsSpace c ||
  [ '<', '>', Char.ofNat 34, Char.ofNat 39, ')', ']', Char.ofNat 125,
    ',', ';', '!' ].contains c

/-- The trailing characters `URL_PATTERN` backs off: `.` and `:`. -/
def isDotColon (c : Char) : Bool := (c == '.') || (c == ':')

-- ---------------------------------------------------------------------------
-- URL_PATTERN (`re.findall` / `re.search` semantics)
-- ---------------------------------------------------------------------------

/-- Strip a literal from the front of a list, returning the remainder on
success (the building block for literal regex alternatives). -/
def dropLit : List Char → List Char → Option (List Char)
  | [], s => some s
  | _ :: _, [] => none
  | c :: cs, d :: ds => if c = d then dropLit cs ds else none

/-- The scheme alternation `(?:https?://|ftp://|www\.)` of `URL_PATTERN`,
tried in the regex engine's order (the four literals are mutually
exclusive as prefixes, so the order is immaterial). -/
def matchUrlStart (s : List Char) : Option (List Char × List Char) :=
  match dropLit (s2l "https://") s with
  | some r => some (s2l "https://", r)
  | none =>
    match dropLit (s2l "http://") s with
    | some r => some (s2l "http://", r)
    | none =>
      match dropLit (s2l "ftp://") s with
      | some r => some (s2l "ftp://", r)
      | none =>
        match dropLit (s2l "www.") s with
        | some r => some (s2l "www.", r)
        | none => none

/-- Attempt an anchored `URL_PATTERN` match: scheme, then the maximal run
of non-delimiter characters, then greedy backtracking off trailing `.`/`:`
(the regex's final one-character class).  Returns the match together with
the rest of the input just after the match. -/
def tryMatchAt (s : List Char) : Option (List Char × List Char) :=
  match matchUrlStart s with
  | none => none
  | some (pre, rest) =>
    let body := rest.takeWhile (fun c => !(isUrlDelim c))
    let body2 := rdropP isDotColon body
    if body2.isEmpty then none
    else some (pre ++ body2, rest.drop body2.length)

/-- `re.findall` scanning: try each start position left to right,
continuing after the end of each (non-overlapping) match.  `fuel` bounds
the recursion; `pyFindAll` supplies `s.length`, which suffices because
every step consumes at least one character. -/
def findAllAux : Nat → List Char → List (List Char)
  | 0, _ => []
  | Nat.succ fuel, s =>
    match tryMatchAt s with
    | some (m, rest) => m :: findAllAux fuel rest
    | none =>
      match s with
      | [] => []
      | _ :: t => findAllAux fuel t

/-- `URL_PATTERN.findall(text)`. -/
def pyFindAll (s : List Char) : List (List Char) :=
  findAllAux s.length s

/-- `bool(URL_PATTERN.search(text))`. -/
def hasUrl (s : List Char) : Bool :=
  !(pyFindAll s).isEmpty

-- ---------------------------------------------------------------------------
-- Line rejoiner
-- ---------------------------------------------------------------------------

/-- The punctuation set of `line.strip().rstrip(".,;:!? ")`. -/
def contPunct : List Char := ['.', ',', ';', ':', '!', '?', ' ']

/-- Count of characters that are alphanumeric or in `URL_CHARS`. -/
def urlCharCount (l : List Char) : Nat :=
  l.countP (fun c => c.isAlphanum || urlChars.contains c)

/-- `_looks_like_url_continuation(line)`.  The float comparison
`count / len >= 0.85` is modelled exactly as `17 * len <= 20 * count`. -/
def looksLikeUrlContinuation (line : List Char) : Bool :=
  if (rdropChars contPunct (pyStrip line)).isEmpty then false
  else if ' ' ∈ rdropChars contPunct (pyStrip line) then false
  else
    decide (17 * (rdropChars contPunct (pyStrip line)).length ≤
      20 * urlCharCount (rdropChars contPunct (pyStrip line))) &&
    decide (5 ≤ (rdropChars contPunct (pyStrip line)).length)

/-- `stripped_line.startswith(BULLET_PREFIXES)` (each bullet is one char). -/
def startsWithBullet (l : List Char) : Bool :=
  match l with
  | [] => false
  | c :: _ => bulletChars.contains c

/-- `_should_join_to_previous(merged_lines, stripped_line)`. -/
def shouldJoinToPrev (merged : List (List Char)) (stripped : List Char) : Bool :=
  !merged.isEmpty &&
  hasUrl (merged.getLastD []) &&
  !stripped.isEmpty &&
  !(startsWithBullet stripped) &&
  looksLikeUrlContinuation stripped

/-- One iteration of the loop in `rejoin_wrapped_urls`:
either merge the stripped line into the last output line or append it. -/
def rejoinStep (merged : List (List Char)) (line : List Char) :
    List (List Char) :=
  let stripped := pyStrip line
  if shouldJoinToPrev merged stripped then
    merged.dropLast ++ [pyRstrip (merged.getLastD []) ++ stripped]
  else
    merged ++ [line]

/-- `rejoin_wrapped_urls(text)`. -/
def rejoinWrappedUrls (text : List Char) : List Char :=
  joinChar '\n' ((splitChar '\n' text).foldl rejoinStep [])

-- ---------------------------------------------------------------------------
-- Hex artifact corrector
-- ---------------------------------------------------------------------------

/-- Count of hex characters in a segment. -/
def hexCount (seg : List Char) : Nat :=
  seg.countP isHexChar

/-- `_fix_hex_segment(segment)`.  The float comparison
`hex_count / len >= 0.7` is modelled exactly as `7 * len <= 10 * hex_count`. -/
def fixHexSegment (seg : List Char) : List Char :=
  if seg.length < 8 then seg
  else if 7 * seg.length ≤ 10 * hexCount seg then seg.map ocrFix
  else seg

/-- The anchored match `re.match(r"(https?://[^/]+)(.*)", url)`:
returns `(group(1), group(2))` on success.  `[^/]+` takes the maximal
non-empty run of non-slash characters (newline included); `(.*)` stops
at the first newline (Python `.` does not match `\n`). -/
def pyMatchHostPath (u : List Char) : Option (List Char × List Char) :=
  match dropLit (s2l "https://") u with
  | some r =>
    let hostc := r.takeWhile (fun c => c != '/')
    if hostc.isEmpty then none
    else some (s2l "https://" ++ hostc,
               (r.drop hostc.length).takeWhile (fun c => c != '\n'))
  | none =>
    match dropLit (s2l "http://") u with
    | some r =>
      let hostc := r.takeWhile (fun c => c != '/')
      if hostc.isEmpty then none
      else some (s2l "http://" ++ hostc,
                 (r.drop hostc.length).takeWhile (fun c => c != '\n'))
    | none => none

/-- `_fix_ocr_artifacts(url)`. -/
def fixOcrArtifacts (url : List Char) : List Char :=
  match pyMatchHostPath url with
  | none => url
  | some (host, path) =>
    host ++ joinChar '/' ((splitChar '/' path).map fixHexSegment)

-- ---------------------------------------------------------------------------
-- Deduplication and pipeline
-- ---------------------------------------------------------------------------

/-- `list(dict.fromkeys(items))`: keep the first occurrence of each
element, preserving order.  `seen` accumulates the keys already kept. -/
def pyDedupAux (seen : List (List Char)) : List (List Char) → List (List Char)
  | [] => []
  | x :: xs =>
    if x ∈ seen then pyDedupAux seen xs
    else x :: pyDedupAux (x :: seen) xs

/-- `_deduplicate(items)`. -/
def pyDedup (l : List (List Char)) : List (List Char) :=
  pyDedupAux [] l

/-- The corrected candidate list: `[_fix_ocr_artifacts(u) for u in
URL_PATTERN.findall(rejoin_wrapped_urls(text))]`. -/
def correctedList (text : List Char) : List (List Char) :=
  (pyFindAll (rejoinWrappedUrls text)).map fixOcrArtifacts

/-- `find_urls(text)`. -/
def findUrls (text : List Char) : List (List Char) :=
  pyDedup (correctedList text)

-- ---------------------------------------------------------------------------
-- Specification-side definitions (for comparison against the code)
-- ---------------------------------------------------------------------------

/-- Index of the first occurrence of `a` (the length of the list when `a`
is absent); used to state the first-occurrence ordering of deduplication. -/
def firstIdx (a : List Char) : List (List Char) → Nat
  | [] => 0
  | b :: t => if b = a then 0 else firstIdx a t + 1

/-- The spec's wording of the per-segment correction rule: if the length
is at least 8 and the hex-digit fraction is at least 0.7, apply the
substitution map to every character; otherwise pass the segment through
unmodified. -/
def specHexSegmentRule (seg : List Char) : List Char :=
  if 8 ≤ seg.length ∧ 7 * seg.length ≤ 10 * hexCount seg then seg.map ocrFix
  else seg

/-- The spec's wording of the continuation heuristic (claim C7): after
stripping trailing punctuation the result is non-empty, contains no
whitespace, has length at least 5, and its URL-character fraction is at
least 0.85.  (The code checks only for the space character, not all
whitespace.) -/
def specContinuationOk (line : List Char) : Prop :=
  rdropChars contPunct line ≠ [] ∧
  (∀ c ∈ rdropChars contPunct line, pyIsSpace c = false) ∧
  5 ≤ (rdropChars contPunct line).length ∧
  17 * (rdropChars contPunct line).length ≤
    20 * urlCharCount (rdropChars contPunct line)

/-- The claim's condition for C9: the string matches `https?://[^/]+`
at its start (an http or https scheme followed by a non-empty authority). -/
def httpAuthorityStart (u : List Char) : Bool :=
  match dropLit (s2l "https://") u with
  | some r => !(r.takeWhile (fun c => c != '/')).isEmpty
  | none =>
    match dropLit (s2l "http://") u with
    | some r => !(r.takeWhile (fun c => c != '/')).isEmpty
    | none => false

/-- Per-character relation between an input URL and its corrected form:
each character is either unchanged or a mapped OCR glyph replaced by its
hex digit. -/
def glyphRel (c d : Char) : Prop :=
  d = c ∨ (c ∈ glyphKeys ∧ d = ocrFix c)

-- ===========================================================================
-- Helper lemmas: splitChar and joinChar
-- ===========================================================================

theorem splitChar_cons_of_eq (sep c : Char) {cs s0 : List Char}
    {rest : List (List Char)} (h : splitChar sep cs = s0 :: rest) :
    splitChar sep (c :: cs) =
      if c = sep then [] :: s0 :: rest else (c :: s0) :: rest := by
  simp only [splitChar, h]

theorem splitChar_ne_nil (sep : Char) (l : List Char) : splitChar sep l ≠ [] := by
  induction l with
  | nil => simp [splitChar]
  | cons c cs ih =>
    cases h : splitChar sep cs with
    | nil => exact absurd h ih
    | cons s rest =>
      rw [splitChar_cons_of_eq sep c h]
      split <;> simp

theorem joinChar_cons_head (sep c : Char) (s : List Char)
    (rest : List (List Char)) :
    joinChar sep ((c :: s) :: rest) = c :: joinChar sep (s :: rest) := by
  cases rest <;> simp [joinChar]

theorem joinChar_splitChar (sep : Char) (l : List Char) :
    joinChar sep (splitChar sep l) = l := by
  induction l with
  | nil => rfl
  | cons c cs ih =>
    cases h : splitChar sep cs with
    | nil => exact absurd h (splitChar_ne_nil sep cs)
    | cons s rest =>
      rw [h] at ih
      rw [splitChar_cons_of_eq sep c h]
      by_cases hc : c = sep
      · subst hc
        rw [if_pos rfl]
        cases rest <;> simp_all [joinChar]
      · rw [if_neg hc, joinChar_cons_head, ih]

theorem mem_splitChar_not_sep {sep : Char} :
    ∀ {l s : List Char}, s ∈ splitChar sep l → sep ∉ s := by
  intro l
  induction l with
  | nil => intro s hs; simp [splitChar] at hs; simp [hs]
  | cons c cs ih =>
    intro s hs
    cases h : splitChar sep cs with
    | nil => exact absurd h (splitChar_ne_nil sep cs)
    | cons s0 rest =>
      rw [splitChar_cons_of_eq sep c h] at hs
      by_cases hc : c = sep
      · rw [if_pos hc] at hs
        rcases List.mem_cons.mp hs with h1 | h1
        · simp [h1]
        · exact ih (h ▸ h1)
      · rw [if_neg hc] at hs
        rcases List.mem_cons.mp hs with h1 | h1
        · subst h1
          intro hmem
          rcases List.mem_cons.mp hmem with h2 | h2
          · exact hc h2.symm
          · exact ih (h ▸ List.mem_cons_self s0 rest) h2
        · exact ih (h ▸ List.mem_cons_of_mem s0 h1)

theorem mem_of_mem_splitChar {sep : Char} :
    ∀ {l s : List Char} {c : Char}, c ∈ s → s ∈ splitChar sep l → c ∈ l := by
  intro l
  induction l with
  | nil =>
    intro s c hc hs
    simp [splitChar] at hs
    subst hs
    simp at hc
  | cons d cs ih =>
    intro s c hc hs
    cases h : splitChar sep cs with
    | nil => exact absurd h (splitChar_ne_nil sep cs)
    | cons s0 rest =>
      rw [splitChar_cons_of_eq sep d h] at hs
      by_cases hd : d = sep
      · rw [if_pos hd] at hs
        rcases List.mem_cons.mp hs with h1 | h1
        · subst h1; simp at hc
        · exact List.mem_cons_of_mem d (ih hc (h ▸ h1))
      · rw [if_neg hd] at hs
        rcases List.mem_cons.mp hs with h1 | h1
        · subst h1
          rcases List.mem_cons.mp hc with h2 | h2
          · exact h2 ▸ List.mem_cons_self d cs
          · exact List.mem_cons_of_mem d
              (ih h2 (h ▸ List.mem_cons_self s0 rest))
        · exact List.mem_cons_of_mem d (ih hc (h ▸ List.mem_cons_of_mem s0 h1))

theorem splitChar_no_sep {sep : Char} :
    ∀ {s : List Char}, sep ∉ s → splitChar sep s = [s] := by
  intro s
  induction s with
  | nil => intro _; rfl
  | cons c cs ih =>
    intro h
    have hc : c ≠ sep := fun he => h (he ▸ List.mem_cons_self c cs)
    have hcs : sep ∉ cs := fun hm => h (List.mem_cons_of_mem c hm)
    rw [splitChar_cons_of_eq sep c (ih hcs), if_neg hc]

theorem splitChar_cons_sep (sep : Char) (l : List Char) :
    splitChar sep (sep :: l) = [] :: splitChar sep l := by
  cases h : splitChar sep l with
  | nil => exact absurd h (splitChar_ne_nil sep l)
  | cons s rest => rw [splitChar_cons_of_eq sep sep h, if_pos rfl]

theorem splitChar_append_sep {sep : Char} :
    ∀ {s : List Char}, sep ∉ s → ∀ r,
      splitChar sep (s ++ sep :: r) = s :: splitChar sep r := by
  intro s
  induction s with
  | nil =>
    intro _ r
    simpa using splitChar_cons_sep sep r
  | cons c cs ih =>
    intro h r
    have hc : c ≠ sep := fun he => h (he ▸ List.mem_cons_self c cs)
    have hcs : sep ∉ cs := fun hm => h (List.mem_cons_of_mem c hm)
    have hrec := ih hcs r
    cases h2 : splitChar sep r with
    | nil => exact absurd h2 (splitChar_ne_nil sep r)
    | cons t q =>
      rw [h2] at hrec
      rw [List.cons_append, splitChar_cons_of_eq sep c hrec, if_neg hc]

theorem splitChar_joinChar {sep : Char} :
    ∀ {L : List (List Char)}, (∀ s ∈ L, sep ∉ s) → L ≠ [] →
      splitChar sep (joinChar sep L) = L := by
  intro L
  induction L with
  | nil => intro _ h; exact absurd rfl h
  | cons s rest ih =>
    intro hall _
    cases rest with
    | nil =>
      simp only [joinChar]
      exact splitChar_no_sep (hall s (List.mem_cons_self s []))
    | cons t r =>
      simp only [joinChar]
      rw [splitChar_append_sep (hall s (List.mem_cons_self s _)) _]
      rw [ih (fun x hx => hall x (List.mem_cons_of_mem s hx)) (by simp)]

theorem mem_joinChar {sep c : Char} :
    ∀ {L : List (List Char)}, c ∈ joinChar sep L →
      c = sep ∨ ∃ s ∈ L, c ∈ s := by
  intro L
  induction L with
  | nil => intro h; simp [joinChar] at h
  | cons s rest ih =>
    intro h
    cases rest with
    | nil =>
      simp only [joinChar] at h
      exact Or.inr ⟨s, List.mem_cons_self s [], h⟩
    | cons t r =>
      simp only [joinChar] at h
      rcases List.mem_append.mp h with h1 | h1
      · exact Or.inr ⟨s, List.mem_cons_self s _, h1⟩
      · rcases List.mem_cons.mp h1 with h2 | h2
        · exact Or.inl h2
        · rcases ih h2 with h3 | ⟨s0, hs0, hc⟩
          · exact Or.inl h3
          · exact Or.inr ⟨s0, List.mem_cons_of_mem s hs0, hc⟩

-- ===========================================================================
-- Helper lemmas: takeWhile
-- ===========================================================================

theorem takeWhile_all {p : Char → Bool} {l : List Char}
    (h : ∀ c ∈ l, p c = true) : l.takeWhile p = l := by
  induction l with
  | nil => rfl
  | cons c cs ih =>
    rw [List.takeWhile_cons_of_pos (h c (List.mem_cons_self c cs))]
    rw [ih (fun x hx => h x (List.mem_cons_of_mem c hx))]

theorem takeWhile_append_stop {p : Char → Bool} {a b : List Char}
    (ha : ∀ c ∈ a, p c = true)
    (hb : ∀ h, b.head? = some h → p h = false) :
    (a ++ b).takeWhile p = a := by
  rw [List.takeWhile_append_of_pos ha]
  cases b with
  | nil => simp
  | cons x xs =>
    rw [List.takeWhile_cons_of_neg]
    · simp
    · simp [hb x rfl]

-- ===========================================================================
-- Helper lemmas: ocrFix and fixHexSegment
-- ===========================================================================

theorem ocrFix_of_not_key {c : Char} (h : c ∉ glyphKeys) : ocrFix c = c := by
  simp only [glyphKeys, List.mem_cons, List.not_mem_nil, or_false, not_or] at h
  obtain ⟨h1, h2, h3, h4, h5, h6⟩ := h
  simp [ocrFix, h1, h2, h3, h4, h5, h6]

theorem ocrFix_digit_of_key {c : Char} (h : c ∈ glyphKeys) :
    ocrFix c ∈ ['0', '1', '5', '6'] := by
  simp only [glyphKeys, List.mem_cons, List.not_mem_nil, or_false] at h
  rcases h with rfl | rfl | rfl | rfl | rfl | rfl <;> decide

theorem ocrFix_idem (c : Char) : ocrFix (ocrFix c) = ocrFix c := by
  by_cases h : c ∈ glyphKeys
  · simp only [glyphKeys, List.mem_cons, List.not_mem_nil, or_false] at h
    rcases h with rfl | rfl | rfl | rfl | rfl | rfl <;> decide
  · rw [ocrFix_of_not_key h, ocrFix_of_not_key h]

theorem ocrFix_of_hex {c : Char} (h : isHexChar c = true) : ocrFix c = c := by
  apply ocrFix_of_not_key
  intro hmem
  simp only [glyphKeys, List.mem_cons, List.not_mem_nil, or_false] at hmem
  rcases hmem with rfl | rfl | rfl | rfl | rfl | rfl <;> simp [isHexChar, hexChars, s2l] at h

theorem isHexChar_ocrFix {c : Char} (h : isHexChar c = true) :
    isHexChar (ocrFix c) = true := by
  rw [ocrFix_of_hex h]; exact h

theorem hexCount_le_map (seg : List Char) :
    hexCount seg ≤ hexCount (seg.map ocrFix) := by
  unfold hexCount
  rw [List.countP_map]
  exact List.countP_mono_left (fun c _ hc => isHexChar_ocrFix hc)

theorem glyphRel_ocrFix (c : Char) : glyphRel c (ocrFix c) := by
  by_cases h : c ∈ glyphKeys
  · exact Or.inr ⟨h, rfl⟩
  · exact Or.inl (ocrFix_of_not_key h)

theorem length_fixHexSegment (seg : List Char) :
    (fixHexSegment seg).length = seg.length := by
  unfold fixHexSegment
  split_ifs <;> simp

theorem mem_fixHexSegment_imp {d : Char} {seg : List Char}
    (h : d ∈ fixHexSegment seg) : d ∈ seg ∨ d ∈ ['0', '1', '5', '6'] := by
  unfold fixHexSegment at h
  split_ifs at h
  · exact Or.inl h
  · rcases List.mem_map.mp h with ⟨c, hc, rfl⟩
    by_cases hk : c ∈ glyphKeys
    · exact Or.inr (ocrFix_digit_of_key hk)
    · rw [ocrFix_of_not_key hk]; exact Or.inl hc
  · exact Or.inl h

theorem fixHexSegment_get? {seg : List Char} {i : Nat} {c : Char}
    (h : seg.get? i = some c) (hk : c ∉ glyphKeys) :
    (fixHexSegment seg).get? i = some c := by
  unfold fixHexSegment
  split_ifs
  · exact h
  · rw [List.get?_map, h, Option.map_some']
    rw [ocrFix_of_not_key hk]
  · exact h

theorem forall₂_fixHexSegment (seg : List Char) :
    List.Forall₂ glyphRel seg (fixHexSegment seg) := by
  unfold fixHexSegment
  split_ifs
  · exact List.forall₂_same.mpr (fun a _ => Or.inl rfl)
  · exact List.forall₂_map_right_iff.mpr
      (List.forall₂_same.mpr (fun a _ => glyphRel_ocrFix a))
  · exact List.forall₂_same.mpr (fun a _ => Or.inl rfl)

theorem fixHexSegment_idem (seg : List Char) :
    fixHexSegment (fixHexSegment seg) = fixHexSegment seg := by
  by_cases h1 : seg.length < 8
  · have e : fixHexSegment seg = seg := by simp [fixHexSegment, h1]
    rw [e, e]
  · by_cases h2 : 7 * seg.length ≤ 10 * hexCount seg
    · have e : fixHexSegment seg = seg.map ocrFix := by
        simp [fixHexSegment, h1, h2]
      rw [e]
      have hlen : (seg.map ocrFix).length = seg.length := by simp
      have h1' : ¬ (seg.map ocrFix).length < 8 := by rw [hlen]; exact h1
      have h2' : 7 * (seg.map ocrFix).length ≤ 10 * hexCount (seg.map ocrFix) := by
        rw [hlen]
        exact h2.trans (Nat.mul_le_mul_left 10 (hexCount_le_map seg))
      unfold fixHexSegment
      rw [if_neg h1', if_pos h2', List.map_map]
      apply List.map_congr_left
      intro a _
      exact ocrFix_idem a
    · have e : fixHexSegment seg = seg := by simp [fixHexSegment, h1, h2]
      rw [e, e]

theorem fixHexSegment_eq_spec (seg : List Char) :
    fixHexSegment seg = specHexSegmentRule seg := by
  unfold fixHexSegment specHexSegmentRule
  split_ifs with h1 h2 h3 h4 h5 <;> try rfl
  · exact absurd h2.1 (by omega)
  · exact absurd h4 (by push_neg; exact ⟨by omega, h3⟩)
  · exact absurd h5.2 h3

-- ===========================================================================
-- Helper lemmas: dropLit and pyMatchHostPath
-- ===========================================================================

theorem dropLit_append : ∀ (a b : List Char), dropLit a (a ++ b) = some b := by
  intro a
  induction a with
  | nil => intro b; rfl
  | cons c cs ih => intro b; simp [dropLit, ih]

theorem dropLit_some : ∀ {a s r : List Char}, dropLit a s = some r → s = a ++ r := by
  intro a
  induction a with
  | nil =>
    intro s r h
    simp only [dropLit, Option.some.injEq] at h
    simp [h]
  | cons c cs ih =>
    intro s r h
    cases s with
    | nil => simp [dropLit] at h
    | cons d ds =>
      simp only [dropLit] at h
      split_ifs at h with hc
      subst hc
      rw [List.cons_append, ih h]

theorem dropLit_https_http (x : List Char) :
    dropLit (s2l "https://") (s2l "http://" ++ x) = none := rfl

theorem head?_dropWhile_false {p : Char → Bool} {l : List Char} {c : Char}
    (h : (l.dropWhile p).head? = some c) : p c = false := by
  have hx := List.head?_dropWhile_not p l
  rw [h] at hx
  exact hx

theorem drop_takeWhile_length (p : Char → Bool) (l : List Char) :
    l.drop (l.takeWhile p).length = l.dropWhile p := by
  have hx := List.drop_left (l.takeWhile p) (l.dropWhile p)
  rw [List.takeWhile_append_dropWhile] at hx
  exact hx

theorem pyMatchHostPath_inv {u host path : List Char}
    (h : pyMatchHostPath u = some (host, path)) :
    ∃ sch r, (sch = s2l "https://" ∨ sch = s2l "http://") ∧
      u = sch ++ r ∧
      r.takeWhile (fun c => c != '/') ≠ [] ∧
      host = sch ++ r.takeWhile (fun c => c != '/') ∧
      path = (r.drop (r.takeWhile (fun c => c != '/')).length).takeWhile
        (fun c => c != '\n') := by
  cases h1 : dropLit (s2l "https://") u with
  | some r =>
    simp only [pyMatchHostPath, h1] at h
    split_ifs at h with he
    simp only [Option.some.injEq, Prod.mk.injEq] at h
    obtain ⟨h2, h3⟩ := h
    exact ⟨s2l "https://", r, Or.inl rfl, dropLit_some h1,
      by simpa [List.isEmpty_iff] using he, h2.symm, h3.symm⟩
  | none =>
    cases h2 : dropLit (s2l "http://") u with
    | some r =>
      simp only [pyMatchHostPath, h1, h2] at h
      split_ifs at h with he
      simp only [Option.some.injEq, Prod.mk.injEq] at h
      obtain ⟨h3, h4⟩ := h
      exact ⟨s2l "http://", r, Or.inr rfl, dropLit_some h2,
        by simpa [List.isEmpty_iff] using he, h3.symm, h4.symm⟩
    | none =>
      simp only [pyMatchHostPath, h1, h2] at h
      exact absurd h (by simp)

theorem pyMatchHostPath_build {sch hostc tail : List Char}
    (hsch : sch = s2l "https://" ∨ sch = s2l "http://")
    (hne : hostc ≠ [])
    (hall : ∀ c ∈ hostc, (c != '/') = true)
    (htail : tail.head? = some '/' ∨ tail = []) :
    pyMatchHostPath (sch ++ (hostc ++ tail)) =
      some (sch ++ hostc, tail.takeWhile (fun c => c != '\n')) := by
  have htw : (hostc ++ tail).takeWhile (fun c => c != '/') = hostc := by
    apply takeWhile_append_stop hall
    intro hch hh
    rcases htail with h1 | h1
    · rw [h1] at hh
      injection hh with hh
      subst hh
      decide
    · rw [h1] at hh
      simp at hh
  have hdrop : (hostc ++ tail).drop hostc.length = tail :=
    List.drop_left hostc tail
  have hemp : hostc.isEmpty ≠ true := by simpa [List.isEmpty_iff] using hne
  rcases hsch with rfl | rfl
  · have h1 : dropLit (s2l "https://") (s2l "https://" ++ (hostc ++ tail)) =
        some (hostc ++ tail) := dropLit_append _ _
    simp only [pyMatchHostPath, h1, htw, hdrop]
    rw [if_neg hemp]
  · have h0 : dropLit (s2l "https://") (s2l "http://" ++ (hostc ++ tail)) =
        none := dropLit_https_http _
    have h1 : dropLit (s2l "http://") (s2l "http://" ++ (hostc ++ tail)) =
        some (hostc ++ tail) := dropLit_append _ _
    simp only [pyMatchHostPath, h0, h1, htw, hdrop]
    rw [if_neg hemp]

-- ===========================================================================
-- Helper lemmas: fixOcrArtifacts structure
-- ===========================================================================

theorem fixOcrArtifacts_of_none {u : List Char}
    (h : pyMatchHostPath u = none) : fixOcrArtifacts u = u := by
  simp only [fixOcrArtifacts, h]

theorem fixOcrArtifacts_of_some {u host path : List Char}
    (h : pyMatchHostPath u = some (host, path)) :
    fixOcrArtifacts u =
      host ++ joinChar '/' ((splitChar '/' path).map fixHexSegment) := by
  simp only [fixOcrArtifacts, h]

theorem head?_takeWhile_some {q : Char → Bool} {X : List Char} {d : Char}
    (h : (X.takeWhile q).head? = some d) : X.head? = some d ∧ q d = true := by
  cases X with
  | nil => simp at h
  | cons x xs =>
    rw [List.takeWhile_cons] at h
    by_cases hq : q x
    · rw [if_pos hq] at h
      simp only [List.head?_cons, Option.some.injEq] at h
      subst h
      exact ⟨rfl, hq⟩
    · rw [if_neg hq] at h
      simp at h

theorem mem_fixedJoin_ne_newline {path : List Char}
    (hpath : ∀ c ∈ path, (c != '\n') = true) :
    ∀ c ∈ joinChar '/' ((splitChar '/' path).map fixHexSegment),
      (c != '\n') = true := by
  intro c hc
  rcases mem_joinChar hc with rfl | ⟨s, hs, hcs⟩
  · decide
  · rcases List.mem_map.mp hs with ⟨s0, hs0, rfl⟩
    rcases mem_fixHexSegment_imp hcs with h1 | h1
    · exact hpath c (mem_of_mem_splitChar h1 hs0)
    · simp only [List.mem_cons, List.not_mem_nil, or_false] at h1
      rcases h1 with rfl | rfl | rfl | rfl <;> decide

theorem fixedJoin_shape {path : List Char}
    (hhead : path.head? = some '/' ∨ path = []) :
    (joinChar '/' ((splitChar '/' path).map fixHexSegment)).head? = some '/' ∨
      joinChar '/' ((splitChar '/' path).map fixHexSegment) = [] := by
  rcases hhead with h1 | h1
  · cases path with
    | nil => simp at h1
    | cons c cs =>
      simp only [List.head?_cons, Option.some.injEq] at h1
      subst h1
      rw [splitChar_cons_sep]
      cases h2 : splitChar '/' cs with
      | nil => exact absurd h2 (splitChar_ne_nil '/' cs)
      | cons t q =>
        left
        simp only [List.map_cons, joinChar]
        have : fixHexSegment [] = [] := rfl
        rw [this]
        rfl
  · subst h1
    right
    rfl

theorem pyMatchHostPath_fix {u host path : List Char}
    (h : pyMatchHostPath u = some (host, path)) :
    pyMatchHostPath (fixOcrArtifacts u) =
      some (host, joinChar '/' ((splitChar '/' path).map fixHexSegment)) := by
  obtain ⟨sch, r, hsch, hu, hne, hhost, hpath⟩ := pyMatchHostPath_inv h
  have hall : ∀ c ∈ r.takeWhile (fun c => c != '/'), (c != '/') = true :=
    fun c hc => List.mem_takeWhile_imp (p := fun d => d != '/') hc
  have hpathnl : ∀ c ∈ path, (c != '\n') = true := by
    intro c hc
    rw [hpath] at hc
    exact List.mem_takeWhile_imp (p := fun d => d != '\n') hc
  have hpathhead : path.head? = some '/' ∨ path = [] := by
    cases hph : path.head? with
    | none => exact Or.inr (List.head?_eq_none_iff.mp hph)
    | some d =>
      left
      rw [hpath, drop_takeWhile_length] at hph
      obtain ⟨hd, _⟩ := head?_takeWhile_some hph
      have hp := head?_dropWhile_false hd
      have : d = '/' := by simpa using hp
      rw [this] at hph ⊢
  have hJhead := fixedJoin_shape hpathhead
  have hJnl := mem_fixedJoin_ne_newline hpathnl
  have hfix := fixOcrArtifacts_of_some h
  rw [hfix, hhost, List.append_assoc]
  rw [pyMatchHostPath_build hsch hne hall hJhead]
  rw [takeWhile_all hJnl, ← hhost]

theorem splitChar_fixedJoin {path : List Char} :
    splitChar '/' (joinChar '/' ((splitChar '/' path).map fixHexSegment)) =
      (splitChar '/' path).map fixHexSegment := by
  apply splitChar_joinChar
  · intro s hs hmem
    rcases List.mem_map.mp hs with ⟨s0, hs0, rfl⟩
    rcases mem_fixHexSegment_imp hmem with h1 | h1
    · exact mem_splitChar_not_sep hs0 h1
    · simp only [List.mem_cons, List.not_mem_nil, or_false] at h1
      rcases h1 with h1 | h1 | h1 | h1 <;> exact absurd h1 (by decide)
  · intro hmap
    have := splitChar_ne_nil '/' path
    cases h2 : splitChar '/' path with
    | nil => exact this h2
    | cons t q => rw [h2] at hmap; simp at hmap

-- ===========================================================================
-- Helper lemmas: deduplication and firstIdx
-- ===========================================================================

theorem mem_pyDedupAux {a : List Char} :
    ∀ {l seen : List (List Char)},
      a ∈ pyDedupAux seen l ↔ a ∈ l ∧ a ∉ seen := by
  intro l
  induction l with
  | nil => intro seen; simp [pyDedupAux]
  | cons x xs ih =>
    intro seen
    simp only [pyDedupAux]
    split_ifs with hx
    · rw [ih, List.mem_cons]
      constructor
      · rintro ⟨h1, h2⟩
        exact ⟨Or.inr h1, h2⟩
      · rintro ⟨h1 | h1, h2⟩
        · subst h1; exact absurd hx h2
        · exact ⟨h1, h2⟩
    · constructor
      · intro hm
        rcases List.mem_cons.mp hm with rfl | hm2
        · exact ⟨List.mem_cons_self _ _, hx⟩
        · obtain ⟨h1, h2⟩ := ih.mp hm2
          exact ⟨List.mem_cons_of_mem x h1,
            fun hs => h2 (List.mem_cons_of_mem x hs)⟩
      · rintro ⟨hm, hs⟩
        rcases List.mem_cons.mp hm with rfl | hm2
        · exact List.mem_cons_self _ _
        · by_cases hax : a = x
          · subst hax; exact List.mem_cons_self _ _
          · refine List.mem_cons_of_mem x (ih.mpr ⟨hm2, fun hmem => ?_⟩)
            rcases List.mem_cons.mp hmem with h3 | h3
            · exact hax h3
            · exact hs h3

theorem nodup_pyDedupAux :
    ∀ {l seen : List (List Char)}, (pyDedupAux seen l).Nodup := by
  intro l
  induction l with
  | nil => intro seen; simp [pyDedupAux]
  | cons x xs ih =>
    intro seen
    simp only [pyDedupAux]
    split_ifs with hx
    · exact ih
    · refine List.nodup_cons.mpr ⟨fun hm => ?_, ih⟩
      have := (mem_pyDedupAux.mp hm).2
      exact this (List.mem_cons_self x seen)

theorem firstIdx_cons (a x : List Char) (t : List (List Char)) :
    firstIdx a (x :: t) = if x = a then 0 else firstIdx a t + 1 := rfl

theorem pairwise_firstIdx_pyDedupAux :
    ∀ {l seen : List (List Char)},
      (pyDedupAux seen l).Pairwise (fun a b => firstIdx a l < firstIdx b l) := by
  intro l
  induction l with
  | nil => intro seen; simp [pyDedupAux]
  | cons x xs ih =>
    intro seen
    simp only [pyDedupAux]
    split_ifs with hx
    · apply List.Pairwise.imp_of_mem ?_ (@ih seen)
      intro a b ha hb hab
      have hax : a ≠ x := fun he =>
        (mem_pyDedupAux.mp ha).2 (he ▸ hx)
      have hbx : b ≠ x := fun he =>
        (mem_pyDedupAux.mp hb).2 (he ▸ hx)
      rw [firstIdx_cons, firstIdx_cons, if_neg (fun he => hax he.symm),
        if_neg (fun he => hbx he.symm)]
      omega
    · refine List.Pairwise.cons ?_ ?_
      · intro b hb
        have hbx : b ≠ x := fun he => by
          have := (mem_pyDedupAux.mp hb).2
          exact this (he ▸ List.mem_cons_self x seen)
        rw [firstIdx_cons, firstIdx_cons, if_pos rfl,
          if_neg (fun he => hbx he.symm)]
        omega
      · apply List.Pairwise.imp_of_mem ?_ (@ih (x :: seen))
        intro a b ha hb hab
        have hax : a ≠ x := fun he => by
          have := (mem_pyDedupAux.mp ha).2
          exact this (he ▸ List.mem_cons_self x seen)
        have hbx : b ≠ x := fun he => by
          have := (mem_pyDedupAux.mp hb).2
          exact this (he ▸ List.mem_cons_self x seen)
        rw [firstIdx_cons, firstIdx_cons, if_neg (fun he => hax he.symm),
          if_neg (fun he => hbx he.symm)]
        omega

-- ===========================================================================
-- Helper lemmas: matcher trailing characters
-- ===========================================================================

theorem rdropP_last {p : Char → Bool} {l : List Char} {c : Char}
    (h : (rdropP p l).getLast? = some c) : p c = false := by
  unfold rdropP at h
  rw [List.getLast?_reverse] at h
  exact head?_dropWhile_false h

theorem tryMatchAt_inv {s m r : List Char}
    (h : tryMatchAt s = some (m, r)) :
    ∃ pre body2, m = pre ++ body2 ∧ body2 ≠ [] ∧
      ∀ c, body2.getLast? = some c → isDotColon c = false := by
  cases hm : matchUrlStart s with
  | none => simp [tryMatchAt, hm] at h
  | some pr =>
    obtain ⟨pre, rest⟩ := pr
    simp only [tryMatchAt, hm] at h
    split_ifs at h with he
    simp only [Option.some.injEq, Prod.mk.injEq] at h
    obtain ⟨h1, _⟩ := h
    refine ⟨pre, _, h1.symm, by simpa [List.isEmpty_iff] using he, ?_⟩
    intro c hc
    exact rdropP_last hc

theorem findAllAux_last :
    ∀ {fuel : Nat} {s m : List Char}, m ∈ findAllAux fuel s →
      m.getLast? ≠ some '.' ∧ m.getLast? ≠ some ':' := by
  intro fuel
  induction fuel with
  | zero => intro s m hm; simp [findAllAux] at hm
  | succ fuel ih =>
    intro s m hm
    simp only [findAllAux] at hm
    cases ht : tryMatchAt s with
    | some mr =>
      obtain ⟨m0, rest⟩ := mr
      rw [ht] at hm
      rcases List.mem_cons.mp hm with rfl | hm2
      · obtain ⟨pre, body2, heq, hne, hlast⟩ := tryMatchAt_inv ht
        subst heq
        cases hc : body2.getLast? with
        | none => exact absurd (List.getLast?_eq_none_iff.mp hc) hne
        | some c =>
          have hdc := hlast c hc
          have hfull : (pre ++ body2).getLast? = some c := by
            rw [List.getLast?_append, hc]
            rfl
          rw [hfull]
          constructor
          · intro hcontra
            injection hcontra with hcontra
            subst hcontra
            simp [isDotColon] at hdc
          · intro hcontra
            injection hcontra with hcontra
            subst hcontra
            simp [isDotColon] at hdc
      · exact ih hm2
    | none =>
      rw [ht] at hm
      cases s with
      | nil => simp at hm
      | cons c t => exact ih hm

-- ===========================================================================
-- Helper lemmas: Forall₂ over joined segment lists
-- ===========================================================================

theorem forall₂_joinChar {R : Char → Char → Prop} (hsep : R '/' '/') :
    ∀ {L M : List (List Char)}, List.Forall₂ (List.Forall₂ R) L M →
      List.Forall₂ R (joinChar '/' L) (joinChar '/' M) := by
  intro L M h
  induction h with
  | nil => exact List.Forall₂.nil
  | cons h1 h2 ih =>
    cases h2 with
    | nil => simpa [joinChar] using h1
    | cons h3 h4 =>
      simp only [joinChar]
      exact List.rel_append h1 (List.Forall₂.cons hsep ih)

-- ===========================================================================
-- Claim theorems
-- ===========================================================================

/-- C1: on the two-line hex wrap input, `find_urls` returns exactly the
one rejoined, hex-corrected URL: the continuation line is merged onto the
URL line, the joined URL is matched, and the misread `Q` becomes `0`. -/
theorem find_urls_two_line_hex_wrap :
    findUrls (s2l "https://gist.github.com/user/9611a\nQaeba2f424949c54d975f9fe78c") =
      [s2l "https://gist.github.com/user/9611a0aeba2f424949c54d975f9fe78c"] := by
  rfl

/-- C2: the corrector never mutates the scheme-plus-authority component:
parsing the corrected URL yields the same host group as parsing the
input. -/
theorem host_never_mutated :
    ∀ u host path : List Char, pyMatchHostPath u = some (host, path) →
      ∃ q, pyMatchHostPath (fixOcrArtifacts u) = some (host, q) := by
  intro u host path h
  exact ⟨_, pyMatchHostPath_fix h⟩

/-- C2 witness: on the hex-dense host example the host group is kept and
the whole URL is unchanged. -/
theorem host_never_mutated_witness :
    pyMatchHostPath (s2l "https://aabbccdd.example.com/path") =
      some (s2l "https://aabbccdd.example.com", s2l "/path") ∧
    (∃ q, pyMatchHostPath
        (fixOcrArtifacts (s2l "https://aabbccdd.example.com/path")) =
      some (s2l "https://aabbccdd.example.com", q)) ∧
    fixOcrArtifacts (s2l "https://aabbccdd.example.com/path") =
      s2l "https://aabbccdd.example.com/path" :=
  ⟨by decide,
   host_never_mutated (s2l "https://aabbccdd.example.com/path")
     (s2l "https://aabbccdd.example.com") (s2l "/path") (by decide),
   by decide⟩

/-- C3: for every http(s) URL the corrector rewrites exactly the
spec's per-segment rule over the split path: segments of length at least
8 with hex fraction at least 0.7 get the substitution map applied to
every character, all other segments pass through unmodified. -/
theorem fix_applies_spec_rule_per_segment :
    ∀ u host path : List Char, pyMatchHostPath u = some (host, path) →
      fixOcrArtifacts u =
        host ++ joinChar '/' ((splitChar '/' path).map specHexSegmentRule) := by
  intro u host path h
  rw [fixOcrArtifacts_of_some h]
  congr 1
  congr 1
  apply List.map_congr_left
  intro s _
  exact fixHexSegment_eq_spec s

/-- C3 witness: the rule applied to a concrete gist URL. -/
theorem fix_applies_spec_rule_per_segment_witness :
    pyMatchHostPath
        (s2l "https://gist.github.com/user/9611aQaeba2f424949c54d975f9fe78c") =
      some (s2l "https://gist.github.com",
        s2l "/user/9611aQaeba2f424949c54d975f9fe78c") ∧
    fixOcrArtifacts
        (s2l "https://gist.github.com/user/9611aQaeba2f424949c54d975f9fe78c") =
      s2l "https://gist.github.com" ++
        joinChar '/'
          ((splitChar '/' (s2l "/user/9611aQaeba2f424949c54d975f9fe78c")).map
            specHexSegmentRule) :=
  ⟨by decide, fix_applies_spec_rule_per_segment _ _ _ (by decide)⟩

/-- C4: `find_urls` returns a duplicate-free list whose elements are
exactly the corrected candidates and whose order is the order of first
occurrence in the corrected candidate list. -/
theorem findUrls_nodup_first_occurrence :
    ∀ text : List Char,
      (findUrls text).Nodup ∧
      (∀ u, u ∈ findUrls text ↔ u ∈ correctedList text) ∧
      (findUrls text).Pairwise
        (fun a b =>
          firstIdx a (correctedList text) < firstIdx b (correctedList text)) := by
  intro text
  refine ⟨nodup_pyDedupAux, ?_, pairwise_firstIdx_pyDedupAux⟩
  intro u
  rw [show findUrls text = pyDedupAux [] (correctedList text) from rfl,
    mem_pyDedupAux]
  simp

/-- C5: no `URL_PATTERN` match ever ends with a period or a colon (the
pattern backs off those trailing characters). -/
theorem matches_never_end_dot_colon :
    ∀ s m : List Char, m ∈ pyFindAll s →
      m.getLast? ≠ some '.' ∧ m.getLast? ≠ some ':' := by
  intro s m hm
  exact findAllAux_last hm

/-- C5 witness: the sentence-terminal period is excluded from the match
and from the pipeline result. -/
theorem matches_never_end_dot_colon_witness :
    (s2l "https://example.com") ∈ pyFindAll (s2l "Visit https://example.com.") ∧
    ((s2l "https://example.com").getLast? ≠ some '.' ∧
     (s2l "https://example.com").getLast? ≠ some ':') ∧
    findUrls (s2l "Visit https://example.com.") = [s2l "https://example.com"] :=
  ⟨by decide,
   matches_never_end_dot_colon (s2l "Visit https://example.com.")
     (s2l "https://example.com") (by decide),
   by decide⟩

/-- C6: the hex-artifact corrector is idempotent. -/
theorem fixOcrArtifacts_idempotent :
    ∀ u : List Char, fixOcrArtifacts (fixOcrArtifacts u) = fixOcrArtifacts u := by
  intro u
  cases h : pyMatchHostPath u with
  | none =>
    rw [fixOcrArtifacts_of_none h, fixOcrArtifacts_of_none h]
  | some hp =>
    obtain ⟨host, path⟩ := hp
    have h2 := pyMatchHostPath_fix h
    rw [fixOcrArtifacts_of_some h2, splitChar_fixedJoin,
      fixOcrArtifacts_of_some h]
    congr 1
    rw [List.map_map]
    apply congrArg
    apply List.map_congr_left
    intro s _
    simp only [Function.comp_apply]
    exact fixHexSegment_idem s

/-- C7 counterexample: the code accepts a trimmed line with an interior
tab, which the claim's "no interior whitespace" characterization
rejects; the code only tests for the space character. -/
theorem continuation_accepts_interior_tab :
    pyStrip (s2l "ab\tcdef") = s2l "ab\tcdef" ∧
    looksLikeUrlContinuation (s2l "ab\tcdef") = true ∧
    ¬ specContinuationOk (s2l "ab\tcdef") := by
  refine ⟨by decide, by decide, ?_⟩
  intro h
  obtain ⟨-, h2, -, -⟩ := h
  have := h2 '\t' (by decide)
  exact absurd this (by decide)

/-- C7 amended: the heuristic accepts a trimmed line if and only if,
after stripping trailing punctuation, the result is non-empty, contains
no space character, has length at least 5, and its fraction of
URL characters is at least 0.85. -/
theorem continuation_characterization :
    ∀ line : List Char, pyStrip line = line →
      (looksLikeUrlContinuation line = true ↔
        (rdropChars contPunct line ≠ [] ∧
         ' ' ∉ rdropChars contPunct line ∧
         5 ≤ (rdropChars contPunct line).length ∧
         17 * (rdropChars contPunct line).length ≤
           20 * urlCharCount (rdropChars contPunct line))) := by
  intro line h
  unfold looksLikeUrlContinuation
  rw [h]
  split_ifs with h1 h2
  · simp only [Bool.false_eq_true, false_iff]
    intro hc
    exact hc.1 (by simpa [List.isEmpty_iff] using h1)
  · simp only [Bool.false_eq_true, false_iff]
    intro hc
    exact hc.2.1 h2
  · simp only [Bool.and_eq_true, decide_eq_true_eq]
    constructor
    · rintro ⟨ha, hb⟩
      exact ⟨by simpa [List.isEmpty_iff] using h1, h2, hb, ha⟩
    · rintro ⟨-, -, hb, ha⟩
      exact ⟨ha, hb⟩

/-- C7 amended witness: a hex hash line is accepted. -/
theorem continuation_characterization_witness :
    pyStrip (s2l "0aeba2f424949c54d975f9fe78c") =
      s2l "0aeba2f424949c54d975f9fe78c" ∧
    looksLikeUrlContinuation (s2l "0aeba2f424949c54d975f9fe78c") = true :=
  ⟨by decide,
   (continuation_characterization (s2l "0aeba2f424949c54d975f9fe78c")
     (by decide)).mpr (by decide)⟩

/-- C8 counterexample: the corrector changes the non-hex character `Q`
(position 0 of a qualifying segment) to `0`, so non-hex characters are
not always preserved. -/
theorem fixHexSegment_changes_a_nonhex_char :
    isHexChar 'Q' = false ∧
    (s2l "Qaeba2f424949c54d975f9fe78c").get? 0 = some 'Q' ∧
    (fixHexSegment (s2l "Qaeba2f424949c54d975f9fe78c")).get? 0 = some '0' := by
  decide

/-- C8 amended: correction never changes the length of a segment and
never changes a character outside the substitution map's key set
O, Q, l, I, S, G (in particular it never changes hex digits). -/
theorem fixHexSegment_frame :
    ∀ seg : List Char, (fixHexSegment seg).length = seg.length ∧
      ∀ i c, seg.get? i = some c → c ∉ glyphKeys →
        (fixHexSegment seg).get? i = some c := by
  intro seg
  exact ⟨length_fixHexSegment seg, fun i c h hk => fixHexSegment_get? h hk⟩

/-- C8 amended witness: length preserved and a non-key character kept on
a concrete segment. -/
theorem fixHexSegment_frame_witness :
    (fixHexSegment (s2l "getting-started")).length =
      (s2l "getting-started").length ∧
    (fixHexSegment (s2l "getting-started")).get? 0 = some 'g' :=
  ⟨(fixHexSegment_frame (s2l "getting-started")).1,
   (fixHexSegment_frame (s2l "getting-started")).2 0 'g' (by decide) (by decide)⟩

/-- C9: the corrector is the identity on every string that does not
begin with an http or https scheme followed by a non-empty authority. -/
theorem fix_identity_on_non_http :
    ∀ u : List Char, httpAuthorityStart u = false → fixOcrArtifacts u = u := by
  intro u h
  apply fixOcrArtifacts_of_none
  cases h1 : dropLit (s2l "https://") u with
  | some r =>
    simp only [httpAuthorityStart, h1, Bool.not_eq_false'] at h
    simp only [pyMatchHostPath, h1]
    rw [if_pos h]
  | none =>
    cases h2 : dropLit (s2l "http://") u with
    | some r =>
      simp only [httpAuthorityStart, h1, h2, Bool.not_eq_false'] at h
      simp only [pyMatchHostPath, h1, h2]
      rw [if_pos h]
    | none =>
      simp only [pyMatchHostPath, h1, h2]

/-- C9 witness: ftp and www URLs pass through unchanged. -/
theorem fix_identity_on_non_http_witness :
    httpAuthorityStart (s2l "ftp://files.example.com/data") = false ∧
    fixOcrArtifacts (s2l "ftp://files.example.com/data") =
      s2l "ftp://files.example.com/data" :=
  ⟨by decide,
   fix_identity_on_non_http (s2l "ftp://files.example.com/data") (by decide)⟩

/-- C10 counterexample: a newline in the path truncates the URL (Python
`.` does not match a newline), so length is not always preserved. -/
theorem fix_truncates_at_newline :
    fixOcrArtifacts (s2l "https://a/b\nc") = s2l "https://a/b" ∧
    (fixOcrArtifacts (s2l "https://a/b\nc")).length ≠
      (s2l "https://a/b\nc").length := by
  decide

/-- C10 amended: for every newline-free input, the corrector preserves
length, relates every position by "unchanged or a mapped glyph replaced
by its digit" (so slash positions and all non-glyph characters are
preserved exactly), and on parsed URLs equals the per-segment rewrite of
the split path. -/
theorem fix_pointwise_frame :
    ∀ u : List Char, '\n' ∉ u →
      (fixOcrArtifacts u).length = u.length ∧
      List.Forall₂ glyphRel u (fixOcrArtifacts u) ∧
      (∀ host path, pyMatchHostPath u = some (host, path) →
        fixOcrArtifacts u =
          host ++ joinChar '/' ((splitChar '/' path).map fixHexSegment)) := by
  intro u hnl
  have hfa : List.Forall₂ glyphRel u (fixOcrArtifacts u) := by
    cases h : pyMatchHostPath u with
    | none =>
      rw [fixOcrArtifacts_of_none h]
      exact List.forall₂_same.mpr (fun a _ => Or.inl rfl)
    | some hp =>
      obtain ⟨host, path⟩ := hp
      obtain ⟨sch, r, hsch, hu, hne, hhost, hpath⟩ := pyMatchHostPath_inv h
      have hr : r = r.takeWhile (fun c => c != '/') ++
          r.dropWhile (fun c => c != '/') :=
        (List.takeWhile_append_dropWhile _ _).symm
      have hnlr : ∀ c ∈ r.dropWhile (fun c => c != '/'), (c != '\n') = true := by
        intro c hc
        have hcr : c ∈ r := (List.dropWhile_sublist _).subset hc
        have hcu : c ∈ u := by
          rw [hu]
          exact List.mem_append.mpr (Or.inr hcr)
        have : c ≠ '\n' := fun he => hnl (he ▸ hcu)
        simpa using this
      have hpath2 : path = r.dropWhile (fun c => c != '/') := by
        rw [hpath, drop_takeWhile_length]
        exact takeWhile_all hnlr
      have hu2 : u = host ++ path := by
        rw [hhost, hpath2, List.append_assoc, ← hr, hu]
      rw [fixOcrArtifacts_of_some h]
      rw [hu2]
      apply List.rel_append
      · exact List.forall₂_same.mpr (fun a _ => Or.inl rfl)
      · have hsplit : List.Forall₂ (List.Forall₂ glyphRel) (splitChar '/' path)
            ((splitChar '/' path).map fixHexSegment) :=
          List.forall₂_map_right_iff.mpr
            (List.forall₂_same.mpr (fun s _ => forall₂_fixHexSegment s))
        have hjoin := forall₂_joinChar (Or.inl rfl) hsplit
        rw [joinChar_splitChar] at hjoin
        exact hjoin
  refine ⟨hfa.length_eq.symm, hfa, ?_⟩
  intro host path h
  exact fixOcrArtifacts_of_some h

/-- C10 amended witness: length preservation on a concrete newline-free
URL. -/
theorem fix_pointwise_frame_witness :
    ('\n' ∉ s2l "https://example.com/docs") ∧
    (fixOcrArtifacts (s2l "https://example.com/docs")).length =
      (s2l "https://example.com/docs").length :=
  ⟨by decide, (fix_pointwise_frame (s2l "https://example.com/docs")
    (by decide)).1⟩
